import Mathlib

/-!
Shallow embedding of `src/main.py` (TimeUse, a desktop activity tracker) and
proofs about its ledger, XML persistence, pause/save tick pipeline, and sort
state machine.

Modelling conventions:
* Python `timedelta` values are modelled as exact rational seconds (`ℚ`);
  `timedelta` arithmetic in Python is exact over microseconds, and the claims
  allow floating-point-seconds tolerance, which the rational model subsumes.
* Python `dict` is modelled as an association list with Python's semantics:
  assigning to an existing key keeps its position, assigning a fresh key
  appends at the end (insertion order is preserved, as in CPython).
* XML documents are modelled structurally (element tag, `name` attribute,
  numeric text, children); pretty-printing is cosmetic per the file format.
  An element's text is `Option ℚ`: `some q` stands for a numeric string
  denoting `q`, `none` for absent or non-numeric text (both make Python's
  `float(...)` raise).
* Exceptions escaping a function are modelled with `Except`; Python functions
  that catch all exceptions are total Lean functions.
-/

namespace TimeUse

/-- Durations: exact rational seconds, the value of a Python `timedelta`. -/
abbrev Duration := ℚ

/-- Python-dict assignment `d[k] = v` on an insertion-ordered association
list: replace in place if the key is present, else append at the end. -/
def dictInsert {α β : Type} [DecidableEq α] (k : α) (v : β) :
    List (α × β) → List (α × β)
  | [] => [(k, v)]
  | (k', v') :: rest =>
      if k = k' then (k, v) :: rest else (k', v') :: dictInsert k v rest

/-- Python-dict lookup `d.get(k)`: the value stored at `k`, if any. -/
def dictGet {α β : Type} [DecidableEq α] (k : α) :
    List (α × β) → Option β
  | [] => none
  | (k', v') :: rest => if k = k' then some v' else dictGet k rest

/-- The keys of an association list, in order. -/
def keys {α β : Type} (l : List (α × β)) : List α := l.map Prod.fst

/-- `TimeRecord` (a `dict` subclass in the source): executable path ↦
(window title ↦ accumulated duration). -/
abbrev TimeRecord := List (String × List (String × Duration))

/-- `TimeRecord.add_timedelta` from `src/main.py` lines 35–37:
```
self[application] = self.get(application, {})
self[application][title] = self[application].get(title, timedelta) + timedelta
```
Note the default of the inner `get` is the `timedelta` argument itself
(the parameter shadows the type name), not a zero duration. -/
def add_timedelta (r : TimeRecord) (application title : String)
    (timedelta : Duration) : TimeRecord :=
  let titles := (dictGet application r).getD []
  let current := (dictGet title titles).getD timedelta
  dictInsert application (dictInsert title (current + timedelta) titles) r

/-- A finite sequence of `add_timedelta` calls applied to the empty ledger;
the reachable ledger states. -/
def accrueAll (calls : List (String × String × Duration)) : TimeRecord :=
  calls.foldl (fun r c => add_timedelta r c.1 c.2.1 c.2.2) []

/-! ## XML model and serialization (lines 39–59 of `src/main.py`) -/

/-- A structural XML element: tag, optional `name` attribute, text content
(`some q` = a numeric string denoting `q`; `none` = absent or non-numeric
text, on which Python's `float` raises), and child elements. -/
structure XmlElem where
  tag : String
  nameAttr : Option String
  text : Option Duration
  children : List XmlElem

/-- `ET.SubElement(app_element, "Title", name=title)` with
`text = str(time.total_seconds())`. -/
def titleToXml (p : String × Duration) : XmlElem :=
  ⟨"Title", some p.1, some p.2, []⟩

/-- `ET.SubElement(root, "Application", name=application)` and its `Title`
children. -/
def appToXml (p : String × List (String × Duration)) : XmlElem :=
  ⟨"Application", some p.1, none, p.2.map titleToXml⟩

/-- `TimeRecord.to_xml` (lines 39–46): a `TimeRecord` root element holding
one `Application` element per ledger entry. The `minidom` pretty-printing
is cosmetic and not modelled. -/
def to_xml (r : TimeRecord) : XmlElem :=
  ⟨"TimeRecord", none, none, r.map appToXml⟩

/-- The exceptions `from_xml` can raise: `KeyError` from a missing `name`
attribute, `TypeError`/`ValueError` from `float` on absent or non-numeric
duration text. -/
inductive XmlError where
  | missingName
  | badDuration
  deriving DecidableEq

/-- `root.findall(tag)`: the direct children carrying the given tag. -/
def findall (tag : String) (e : XmlElem) : List XmlElem :=
  e.children.filter (fun c => c.tag = tag)

/-- A `for` loop over a list whose body may raise: stops at the first
raised exception, otherwise threads the accumulator through. -/
def exceptFoldl {ε β α : Type} (f : β → α → Except ε β) :
    β → List α → Except ε β
  | acc, [] => .ok acc
  | acc, x :: xs =>
      match f acc x with
      | .error e => .error e
      | .ok acc' => exceptFoldl f acc' xs

/-- One iteration of the inner loop of `from_xml` (lines 55–58):
`title = title_element.attrib["name"]` (KeyError if absent), then
`time = timedelta(seconds=float(title_element.text))` (raises on absent or
non-numeric text), then `record[application][title] = time`. -/
def parseTitle (titles : List (String × Duration)) (t : XmlElem) :
    Except XmlError (List (String × Duration)) :=
  match t.nameAttr with
  | none => .error .missingName
  | some title =>
      match t.text with
      | none => .error .badDuration
      | some d => .ok (dictInsert title d titles)

/-- One iteration of the outer loop of `from_xml` (lines 52–58):
`application = app_element.attrib["name"]`, `record[application] = {}`,
then the `Title` loop. A repeated application name thus replaces the
earlier entry's titles wholesale. -/
def parseApp (r : TimeRecord) (a : XmlElem) : Except XmlError TimeRecord :=
  match a.nameAttr with
  | none => .error .missingName
  | some application =>
      match exceptFoldl parseTitle [] (findall "Title" a) with
      | .error e => .error e
      | .ok titles => .ok (dictInsert application titles r)

/-- `TimeRecord.from_xml` (lines 48–59). Note it never inspects the root
element's tag: it only iterates `root.findall("Application")`. -/
def from_xml (root : XmlElem) : Except XmlError TimeRecord :=
  exceptFoldl parseApp [] (findall "Application" root)

/-- `TimeUseApp.load_record` (lines 87–92): the backing store abstracted as
`none` (file absent, `FileNotFoundError` caught) or `some doc` (the parsed
document). Parse errors inside `from_xml` propagate. -/
def load_record (file : Option XmlElem) : Except XmlError TimeRecord :=
  match file with
  | none => .ok []
  | some doc => from_xml doc

/-! ## Persistence as file-system operations (lines 94–97) -/

/-- The state of one path in the file system: absent, truncated by an
in-progress `open(..., "w")`, or holding a complete serialized document. -/
inductive FileContent where
  | absent
  | truncated
  | complete (doc : XmlElem)

/-- The primitive file operations the persistence layer could perform. -/
inductive FsOp where
  | openTrunc (path : String)
  | writeAll (path : String) (doc : XmlElem)
  | rename (src dst : String)

/-- `TimeUseApp.save_record` (lines 94–97) as its operation trace:
`open("record.xml", "w")` truncates the backing file in place, then the
serialized ledger is written. There is no temporary file and no rename. -/
def save_record_ops (record : TimeRecord) : List FsOp :=
  [FsOp.openTrunc "record.xml", FsOp.writeAll "record.xml" (to_xml record)]

/-- Effect of one file operation on the file system (path ↦ content). -/
def applyOp (fs : String → FileContent) : FsOp → String → FileContent
  | .openTrunc p, q => if q = p then .truncated else fs q
  | .writeAll p doc, q => if q = p then .complete doc else fs q
  | .rename s d, q =>
      if q = d then fs s else if q = s then .absent else fs q

/-- Run a sequence of file operations; a process termination mid-save is a
prefix of the operation trace. -/
def runOps (fs : String → FileContent) (ops : List FsOp) :
    String → FileContent :=
  ops.foldl applyOp fs

/-- Some path of the file system holds the complete document `doc`. -/
def docPresent (fs : String → FileContent) (doc : XmlElem) : Prop :=
  ∃ p, fs p = .complete doc

/-! ## The tick/pause/sort state machine (lines 62–198) -/

/-- The result dictionary of `get_active_window_info` (lines 21–31). -/
structure WindowInfo where
  error : Option String
  process_id : Int
  process_name : String
  title : String

/-- `get_active_window_info` (lines 21–31): the OS query either yields
(process id, executable path, window title) or raises; the `except` clause
turns any exception into an error dictionary, so the function itself never
raises. -/
def get_active_window_info (osQuery : Except String (Int × String × String)) :
    WindowInfo :=
  match osQuery with
  | .error e => ⟨some e, -1, "unknown", "unknown"⟩
  | .ok (p, pname, t) => ⟨none, p, pname, t⟩

/-- The mutable state of `TimeUseApp` relevant to the claims: the pause
flag, the ledger, the snapshots written by `save_record` (most recent
first), and the two sort flags (lines 71–79). -/
structure AppState where
  paused : Bool
  record : TimeRecord
  saves : List TimeRecord
  sort_by_process_up : Option Bool
  sort_by_time_up : Option Bool

/-- The state after `on_mount` (lines 105–127): not paused, ledger loaded
from the backing store, nothing saved yet, `sort_by_process_up = True` and
`sort_by_time_up = None` (lines 78–79). -/
def initialState (loaded : TimeRecord) : AppState :=
  ⟨false, loaded, [], some true, none⟩

/-- The events processed by the app: a 1-second sample tick carrying the
sampler's result, a 10-second save tick, and the key actions. -/
inductive Event where
  | sampleTick (info : WindowInfo)
  | saveTick
  | togglePause
  | sortByProcess
  | sortByTime

/-- One event of the pipeline built in `on_mount` plus the key actions:
* sample tick: `filter(not paused)` drops the tick while paused; the
  sampled info passes `filter("error" not in info)` before
  `record_and_print_error` accrues `timedelta(seconds=1)` (lines 111–120);
* save tick: `filter(not paused)`, then `save_record(record)` (lines 112,
  122);
* `action_switch_paused` (lines 170–171) flips the pause flag;
* `action_sort_by_process` (lines 180–186) clears the time flag and sets or
  toggles the process flag; `action_sort_by_time` (lines 188–194) mirrors it. -/
def step (s : AppState) : Event → AppState
  | .sampleTick info =>
      if s.paused then s
      else if info.error.isSome then s
      else { s with record := add_timedelta s.record info.process_name info.title 1 }
  | .saveTick =>
      if s.paused then s else { s with saves := s.record :: s.saves }
  | .togglePause => { s with paused := !s.paused }
  | .sortByProcess =>
      { s with
        sort_by_time_up := none
        sort_by_process_up :=
          some (match s.sort_by_process_up with
                | none => true
                | some b => !b) }
  | .sortByTime =>
      { s with
        sort_by_process_up := none
        sort_by_time_up :=
          some (match s.sort_by_time_up with
                | none => true
                | some b => !b) }

/-- Process a sequence of events in arrival order. -/
def run (s : AppState) (es : List Event) : AppState :=
  es.foldl step s

/-- The tick events (sample or save), as opposed to key actions. -/
def isTick : Event → Bool
  | .sampleTick _ => true
  | .saveTick => true
  | _ => false

/-! ## The table projection's ordering (lines 137–168) -/

/-- Stable insertion with a strict comparator: `x` is placed before the
first element not strictly below it, so elements the comparator ties keep
their original relative order. -/
def insertStable {α : Type} (ltb : α → α → Bool) (x : α) :
    List α → List α
  | [] => [x]
  | y :: ys => if ltb y x then y :: insertStable ltb x ys else x :: y :: ys

/-- Stable sort by a strict comparator (the result any stable sorting
algorithm produces, CPython's `sorted` included). -/
def sortStable {α : Type} (ltb : α → α → Bool) : List α → List α
  | [] => []
  | x :: xs => insertStable ltb x (sortStable ltb xs)

/-- Python's `sorted(l, key=key, reverse=rev)`: a stable sort, ascending by
key, or descending when `reverse=True` (ties keep original order either
way). -/
def pySorted {α β : Type} [LT β] [DecidableRel (@LT.lt β _)]
    (key : α → β) (rev : Bool) (l : List α) : List α :=
  sortStable (fun a b => if rev then decide (key b < key a)
                         else decide (key a < key b)) l

/-- `sum(titles.values(), timedelta())` (lines 148, 150). -/
def timedeltaSum (titles : List (String × Duration)) : Duration :=
  titles.foldl (fun acc p => acc + p.2) 0

/-- The ordering portion of `refresh_table` (lines 144–164): the
application pairs are sorted by path when `sort_by_process_up` is set
(`reverse=sort_by_process_up`), then by total duration when
`sort_by_time_up` is set; within each application the titles are sorted
the same way (by title name, respectively by duration). Row formatting
(path basename, title truncation, styling) carries no ordering content and
is not modelled. -/
def orderEntries (sbp sbt : Option Bool) (r : TimeRecord) : TimeRecord :=
  let data : TimeRecord := match sbp with
    | some rev => pySorted (fun x : String × List (String × Duration) => x.1) rev r
    | none => r
  let data : TimeRecord := match sbt with
    | some rev =>
        pySorted (fun x : String × List (String × Duration) => timedeltaSum x.2)
          rev data
    | none => data
  data.map fun p =>
    let td : List (String × Duration) := match sbp with
      | some rev => pySorted (fun x : String × Duration => x.1) rev p.2
      | none => p.2
    let td : List (String × Duration) := match sbt with
      | some rev => pySorted (fun x : String × Duration => x.2) rev td
      | none => td
    (p.1, td)

/-! ## Association-list lemmas -/

theorem keys_dictInsert {α β : Type} [DecidableEq α] (k : α) (v : β)
    (l : List (α × β)) :
    keys (dictInsert k v l) =
      if k ∈ keys l then keys l else keys l ++ [k] := by
  induction l with
  | nil => simp [dictInsert, keys]
  | cons hd tl ih =>
      obtain ⟨k', v'⟩ := hd
      by_cases hk : k = k'
      · subst hk
        simp [dictInsert, keys]
      · simp only [dictInsert, if_neg hk, keys, List.map_cons, List.mem_cons]
        simp only [keys] at ih
        rw [ih]
        by_cases hmem : k ∈ tl.map Prod.fst
        · simp [hmem, hk]
        · simp [hmem, hk, Ne.symm hk]

theorem keys_nodup_dictInsert {α β : Type} [DecidableEq α] {k : α} {v : β}
    {l : List (α × β)} (h : (keys l).Nodup) :
    (keys (dictInsert k v l)).Nodup := by
  rw [keys_dictInsert]
  by_cases hmem : k ∈ keys l
  · simpa [hmem]
  · simp only [hmem, if_false]
    simpa [List.nodup_append] using ⟨h, hmem⟩

theorem dictInsert_of_not_mem {α β : Type} [DecidableEq α] {k : α} (v : β)
    {l : List (α × β)} (h : k ∉ keys l) :
    dictInsert k v l = l ++ [(k, v)] := by
  induction l with
  | nil => rfl
  | cons hd tl ih =>
      obtain ⟨k', v'⟩ := hd
      simp only [keys, List.map_cons, List.mem_cons, not_or] at h
      simp [dictInsert, h.1, ih (by simpa [keys] using h.2)]

theorem mem_dictInsert {α β : Type} [DecidableEq α] {k : α} {v : β}
    {l : List (α × β)} {p : α × β} (h : p ∈ dictInsert k v l) :
    p = (k, v) ∨ p ∈ l := by
  induction l with
  | nil =>
      left
      simpa [dictInsert] using h
  | cons hd tl ih =>
      obtain ⟨k', v'⟩ := hd
      by_cases hk : k = k'
      · subst hk
        rw [dictInsert, if_pos rfl] at h
        rcases List.mem_cons.mp h with h | h
        · exact Or.inl h
        · exact Or.inr (List.mem_cons_of_mem _ h)
      · rw [dictInsert, if_neg hk] at h
        rcases List.mem_cons.mp h with h | h
        · exact Or.inr (h ▸ List.mem_cons_self _ _)
        · rcases ih h with h' | h'
          · exact Or.inl h'
          · exact Or.inr (List.mem_cons_of_mem _ h')

theorem dictGet_mem {α β : Type} [DecidableEq α] {k : α} {v : β}
    {l : List (α × β)} (h : dictGet k l = some v) : (k, v) ∈ l := by
  induction l with
  | nil => simp [dictGet] at h
  | cons hd tl ih =>
      obtain ⟨k', v'⟩ := hd
      by_cases hk : k = k'
      · subst hk
        rw [dictGet, if_pos rfl] at h
        exact (Option.some.injEq _ _ ▸ h : v' = v) ▸ List.mem_cons_self _ _
      · rw [dictGet, if_neg hk] at h
        exact List.mem_cons_of_mem _ (ih h)

/-! ## Well-formedness of reachable ledgers -/

/-- A `TimeRecord` is well-formed when its application keys and each
application's title keys are duplicate-free — as Python dicts guarantee by
construction. -/
def WF (r : TimeRecord) : Prop :=
  (keys r).Nodup ∧ ∀ p ∈ r, (keys p.2).Nodup

theorem WF_nil : WF [] := by constructor <;> simp [keys]

theorem WF_add_timedelta {r : TimeRecord} (h : WF r)
    (application title : String) (d : Duration) :
    WF (add_timedelta r application title d) := by
  obtain ⟨hkeys, hentries⟩ := h
  unfold add_timedelta
  refine ⟨keys_nodup_dictInsert hkeys, ?_⟩
  intro p hp
  rcases mem_dictInsert hp with hpe | hpe
  · subst hpe
    have htitles : (keys ((dictGet application r).getD [])).Nodup := by
      cases hget : dictGet application r with
      | none => simp [keys]
      | some ts =>
          simpa using hentries _ (dictGet_mem hget)
    exact keys_nodup_dictInsert htitles
  · exact hentries _ hpe

theorem WF_accrueAll (calls : List (String × String × Duration)) :
    WF (accrueAll calls) := by
  suffices h : ∀ r : TimeRecord, WF r →
      WF (calls.foldl (fun r c => add_timedelta r c.1 c.2.1 c.2.2) r) by
    exact h [] WF_nil
  induction calls with
  | nil => intro r hr; exact hr
  | cons c cs ih =>
      intro r hr
      exact ih _ (WF_add_timedelta hr _ _ _)

/-! ## Serialization round-trip -/

theorem keys_cons {α β : Type} (p : α × β) (l : List (α × β)) :
    keys (p :: l) = p.1 :: keys l := rfl

theorem keys_append {α β : Type} (l₁ l₂ : List (α × β)) :
    keys (l₁ ++ l₂) = keys l₁ ++ keys l₂ := by
  simp [keys]

theorem foldl_dictInsert_of_disjoint {α β : Type} [DecidableEq α] :
    ∀ (l acc : List (α × β)), (∀ k ∈ keys l, k ∉ keys acc) → (keys l).Nodup →
      l.foldl (fun m p => dictInsert p.1 p.2 m) acc = acc ++ l := by
  intro l
  induction l with
  | nil => intro acc _ _; simp
  | cons hd tl ih =>
      intro acc hdisj hnodup
      obtain ⟨k, v⟩ := hd
      rw [keys_cons] at hdisj hnodup
      have hk_acc : k ∉ keys acc := hdisj k (List.mem_cons_self _ _)
      have hk_tl : k ∉ keys tl := (List.nodup_cons.mp hnodup).1
      have hnodup' : (keys tl).Nodup := (List.nodup_cons.mp hnodup).2
      simp only [List.foldl_cons, dictInsert_of_not_mem v hk_acc]
      have hdisj' : ∀ k' ∈ keys tl, k' ∉ keys (acc ++ [(k, v)]) := by
        intro k' hk'
        rw [keys_append]
        simp only [List.mem_append, not_or]
        refine ⟨hdisj k' (List.mem_cons_of_mem _ hk'), ?_⟩
        simp only [keys, List.map_cons, List.map_nil, List.mem_singleton]
        intro hcontra
        exact hk_tl (hcontra ▸ hk')
      rw [ih (acc ++ [(k, v)]) hdisj' hnodup']
      simp

theorem rebuild_of_nodup {α β : Type} [DecidableEq α] (l : List (α × β))
    (h : (keys l).Nodup) :
    l.foldl (fun m p => dictInsert p.1 p.2 m) [] = l := by
  simpa using foldl_dictInsert_of_disjoint l [] (by simp [keys]) h

theorem findall_to_xml (r : TimeRecord) :
    findall "Application" (to_xml r) = r.map appToXml := by
  unfold findall to_xml
  rw [List.filter_eq_self.mpr]
  intro a ha
  rcases List.mem_map.mp ha with ⟨p, _, hp⟩
  subst hp
  simp [appToXml]

theorem findall_appToXml (p : String × List (String × Duration)) :
    findall "Title" (appToXml p) = p.2.map titleToXml := by
  unfold findall appToXml
  rw [List.filter_eq_self.mpr]
  intro a ha
  rcases List.mem_map.mp ha with ⟨q, _, hq⟩
  subst hq
  simp [titleToXml]

theorem parseTitles_map (ts : List (String × Duration)) :
    ∀ acc : List (String × Duration),
      exceptFoldl parseTitle acc (ts.map titleToXml)
        = .ok (ts.foldl (fun m p => dictInsert p.1 p.2 m) acc) := by
  induction ts with
  | nil => intro acc; rfl
  | cons hd tl ih =>
      intro acc
      obtain ⟨t, d⟩ := hd
      simp only [List.map_cons, exceptFoldl, parseTitle, titleToXml,
        List.foldl_cons]
      exact ih _

theorem parseApp_appToXml (r : TimeRecord)
    (p : String × List (String × Duration)) (h : (keys p.2).Nodup) :
    parseApp r (appToXml p) = .ok (dictInsert p.1 p.2 r) := by
  obtain ⟨a, ts⟩ := p
  have hfind : findall "Title" (appToXml (a, ts)) = ts.map titleToXml :=
    findall_appToXml (a, ts)
  simp only [appToXml] at hfind
  simp only [parseApp, appToXml, hfind, parseTitles_map,
    rebuild_of_nodup ts h]

theorem parseApps_map (r : TimeRecord) (hwf : ∀ p ∈ r, (keys p.2).Nodup) :
    ∀ acc : TimeRecord,
      exceptFoldl parseApp acc (r.map appToXml)
        = .ok (r.foldl (fun m p => dictInsert p.1 p.2 m) acc) := by
  induction r with
  | nil => intro acc; rfl
  | cons hd tl ih =>
      intro acc
      simp only [List.map_cons, exceptFoldl, List.foldl_cons]
      rw [parseApp_appToXml acc hd (hwf hd (List.mem_cons_self _ _))]
      exact ih (fun p hp => hwf p (List.mem_cons_of_mem _ hp)) _

theorem from_xml_to_xml {r : TimeRecord} (h : WF r) :
    from_xml (to_xml r) = .ok r := by
  obtain ⟨hkeys, hentries⟩ := h
  rw [from_xml, findall_to_xml, parseApps_map r hentries [],
    rebuild_of_nodup r hkeys]

/-! ## Stable-sort lemmas -/

theorem insertStable_perm {α : Type} (ltb : α → α → Bool) (x : α)
    (l : List α) : List.Perm (insertStable ltb x l) (x :: l) := by
  induction l with
  | nil => exact List.Perm.refl _
  | cons y ys ih =>
      by_cases h : ltb y x = true
      · rw [insertStable, if_pos h]
        exact (ih.cons y).trans (List.Perm.swap x y ys)
      · rw [insertStable, if_neg h]

theorem sortStable_perm {α : Type} (ltb : α → α → Bool) (l : List α) :
    List.Perm (sortStable ltb l) l := by
  induction l with
  | nil => exact List.Perm.refl _
  | cons x xs ih =>
      exact (insertStable_perm ltb x _).trans (ih.cons x)

theorem insertStable_sorted {α : Type} {ltb : α → α → Bool}
    (hasym : ∀ a b, ltb a b = true → ltb b a = false)
    (htrans : ∀ a b c, ltb b a = false → ltb c b = false → ltb c a = false)
    (x : α) {l : List α}
    (hl : List.Sorted (fun a b => ltb b a = false) l) :
    List.Sorted (fun a b => ltb b a = false) (insertStable ltb x l) := by
  induction l with
  | nil => simp [insertStable]
  | cons y ys ih =>
      rcases List.sorted_cons.mp hl with ⟨hy, hys⟩
      by_cases h : ltb y x = true
      · rw [insertStable, if_pos h]
        refine List.sorted_cons.mpr ⟨?_, ih hys⟩
        intro z hz
        rcases List.mem_cons.mp ((insertStable_perm ltb x ys).subset hz)
          with hz' | hz'
        · rw [hz']
          exact hasym y x h
        · exact hy z hz'
      · rw [insertStable, if_neg h]
        have hxy : ltb y x = false := Bool.eq_false_iff.mpr h
        refine List.sorted_cons.mpr ⟨?_, hl⟩
        intro z hz
        rcases List.mem_cons.mp hz with hz' | hz'
        · rw [hz']
          exact hxy
        · exact htrans x y z hxy (hy z hz')

theorem sortStable_sorted {α : Type} {ltb : α → α → Bool}
    (hasym : ∀ a b, ltb a b = true → ltb b a = false)
    (htrans : ∀ a b c, ltb b a = false → ltb c b = false → ltb c a = false)
    (l : List α) :
    List.Sorted (fun a b => ltb b a = false) (sortStable ltb l) := by
  induction l with
  | nil => simp [sortStable]
  | cons x xs ih => exact insertStable_sorted hasym htrans x ih

/-! ## Error propagation in `from_xml` -/

theorem exceptFoldl_error {ε β α : Type} (f : β → α → Except ε β) (x : α)
    (hx : ∀ acc, ∃ e, f acc x = .error e) :
    ∀ (l : List α), x ∈ l → ∀ acc, ∃ e, exceptFoldl f acc l = .error e := by
  intro l
  induction l with
  | nil => intro h; exact absurd h (List.not_mem_nil x)
  | cons y ys ih =>
      intro hmem acc
      rcases List.mem_cons.mp hmem with heq | hmem'
      · subst heq
        obtain ⟨e, he⟩ := hx acc
        exact ⟨e, by simp [exceptFoldl, he]⟩
      · cases hf : f acc y with
        | error e => exact ⟨e, by simp [exceptFoldl, hf]⟩
        | ok acc' =>
            obtain ⟨e, he⟩ := ih hmem' acc'
            exact ⟨e, by simp [exceptFoldl, hf, he]⟩

/-- A `Title` element with a missing `name` attribute or with absent or
non-numeric duration text makes its loop iteration raise. -/
theorem parseTitle_bad {t : XmlElem}
    (hbad : t.nameAttr = none ∨ t.text = none) :
    ∀ acc, ∃ e, parseTitle acc t = .error e := by
  intro acc
  rcases hbad with h | h
  · exact ⟨.missingName, by simp [parseTitle, h]⟩
  · cases hn : t.nameAttr with
    | none => exact ⟨.missingName, by simp [parseTitle, hn]⟩
    | some title => exact ⟨.badDuration, by simp [parseTitle, hn, h]⟩

/-- An `Application` element with a missing `name` attribute, or containing
a bad `Title` element, makes its loop iteration raise. -/
theorem parseApp_bad {a : XmlElem}
    (hbad : a.nameAttr = none ∨
      ∃ t ∈ findall "Title" a, t.nameAttr = none ∨ t.text = none) :
    ∀ acc, ∃ e, parseApp acc a = .error e := by
  intro acc
  rcases hbad with h | ⟨t, htmem, htbad⟩
  · exact ⟨.missingName, by simp [parseApp, h]⟩
  · cases hn : a.nameAttr with
    | none => exact ⟨.missingName, by simp [parseApp, hn]⟩
    | some application =>
        obtain ⟨e, he⟩ :=
          exceptFoldl_error parseTitle t (parseTitle_bad htbad)
            (findall "Title" a) htmem []
        exact ⟨e, by simp [parseApp, hn, he]⟩

theorem from_xml_error {root : XmlElem}
    (h : ∃ a ∈ findall "Application" root, a.nameAttr = none ∨
      ∃ t ∈ findall "Title" a, t.nameAttr = none ∨ t.text = none) :
    ∃ e, from_xml root = .error e := by
  obtain ⟨a, hamem, habad⟩ := h
  exact exceptFoldl_error parseApp a (parseApp_bad habad)
    (findall "Application" root) hamem []

theorem dictGet_dictInsert_self {α β : Type} [DecidableEq α] (k : α) (v : β)
    (l : List (α × β)) : dictGet k (dictInsert k v l) = some v := by
  induction l with
  | nil => simp [dictInsert, dictGet]
  | cons hd tl ih =>
      obtain ⟨k', v'⟩ := hd
      by_cases hk : k = k'
      · subst hk
        rw [dictInsert, if_pos rfl, dictGet, if_pos rfl]
      · rw [dictInsert, if_neg hk, dictGet, if_neg hk]
        exact ih

theorem dictGet_dictInsert_ne {α β : Type} [DecidableEq α] {a k : α}
    (hne : a ≠ k) (v : β) (l : List (α × β)) :
    dictGet a (dictInsert k v l) = dictGet a l := by
  induction l with
  | nil => simp [dictInsert, dictGet, hne]
  | cons hd tl ih =>
      obtain ⟨k', v'⟩ := hd
      by_cases hk : k = k'
      · subst hk
        rw [dictInsert, if_pos rfl, dictGet, dictGet, if_neg hne, if_neg hne]
      · rw [dictInsert, if_neg hk, dictGet, dictGet]
        by_cases ha : a = k'
        · rw [if_pos ha, if_pos ha]
        · rw [if_neg ha, if_neg ha]
          exact ih

/-- `parseApp` on a serialized application entry, without assuming the title
keys are duplicate-free: the titles are re-inserted one by one. -/
theorem parseApp_appToXml_foldl (r : TimeRecord)
    (p : String × List (String × Duration)) :
    parseApp r (appToXml p)
      = .ok (dictInsert p.1
          (p.2.foldl (fun m q => dictInsert q.1 q.2 m) []) r) := by
  obtain ⟨a, ts⟩ := p
  have hfind : findall "Title" (appToXml (a, ts)) = ts.map titleToXml :=
    findall_appToXml (a, ts)
  simp only [appToXml] at hfind
  simp only [parseApp, appToXml, hfind, parseTitles_map]

/-- Splitting an exception-propagating loop that ran to completion. -/
theorem exceptFoldl_append_ok {ε β α : Type} (f : β → α → Except ε β) :
    ∀ (l₁ l₂ : List α) (acc r : β),
      exceptFoldl f acc (l₁ ++ l₂) = .ok r →
      ∃ mid, exceptFoldl f acc l₁ = .ok mid ∧ exceptFoldl f mid l₂ = .ok r := by
  intro l₁
  induction l₁ with
  | nil =>
      intro l₂ acc r h
      exact ⟨acc, rfl, h⟩
  | cons x xs ih =>
      intro l₂ acc r h
      rw [List.cons_append] at h
      cases hf : f acc x with
      | error e =>
          rw [exceptFoldl, hf] at h
          exact absurd h (by simp)
      | ok acc' =>
          rw [exceptFoldl, hf] at h
          obtain ⟨mid, h₁, h₂⟩ := ih l₂ acc' r h
          refine ⟨mid, ?_, h₂⟩
          rw [exceptFoldl, hf]
          exact h₁

/-- A completed run of the application loop over elements none of which is
named `nm` leaves the ledger entry for `nm` unchanged. -/
theorem exceptFoldl_parseApp_other {nm : String} :
    ∀ (l : List XmlElem) (acc r : TimeRecord),
      exceptFoldl parseApp acc l = .ok r →
      (∀ b ∈ l, b.nameAttr ≠ some nm) →
      dictGet nm r = dictGet nm acc := by
  intro l
  induction l with
  | nil =>
      intro acc r h _
      cases h
      rfl
  | cons b bs ih =>
      intro acc r h hother
      cases hf : parseApp acc b with
      | error e =>
          rw [exceptFoldl, hf] at h
          exact absurd h (by simp)
      | ok acc' =>
          rw [exceptFoldl, hf] at h
          have hrest := ih acc' r h
            (fun c hc => hother c (List.mem_cons_of_mem _ hc))
          cases hname : b.nameAttr with
          | none => simp [parseApp, hname] at hf
          | some name =>
              have hne : nm ≠ name := by
                intro hcontra
                exact hother b (List.mem_cons_self _ _) (by rw [hname, hcontra])
              rw [parseApp, hname] at hf
              cases hts : exceptFoldl parseTitle [] (findall "Title" b) with
              | error e => rw [hts] at hf; exact absurd hf (by simp)
              | ok ts =>
                  rw [hts] at hf
                  have hacc' : acc' = dictInsert name ts acc := by
                    simpa using hf.symm
                  rw [hrest, hacc', dictGet_dictInsert_ne hne]

/-! ## Descending stable sort by key -/

/-- `pySorted` with `reverse=True` is the stable sort with the reversed
strict comparator. -/
theorem pySorted_true {α β : Type} [LT β] [DecidableRel (@LT.lt β _)]
    (key : α → β) (l : List α) :
    pySorted key true l = sortStable (fun a b => decide (key b < key a)) l := by
  simp [pySorted]

/-- A stable sort whose comparator is the reversed strict order of a key
into a linear order produces a list whose keys descend. Stated for any
comparator Boolean-equivalent to the strict order, so it applies whatever
decidability instance the comparator was elaborated with. -/
theorem sortStable_pairwise_key_desc {α β : Type} [LinearOrder β]
    (key : α → β) {ltb : α → α → Bool}
    (hltb : ∀ a b, ltb a b = true ↔ key b < key a) (l : List α) :
    List.Pairwise (fun a b => key b ≤ key a) (sortStable ltb l) := by
  have hfalse : ∀ a b, ltb a b = false ↔ ¬ key b < key a := by
    intro a b
    rw [← hltb a b, Bool.eq_false_iff]
  have hasym : ∀ a b : α, ltb a b = true → ltb b a = false := by
    intro a b h
    exact (hfalse b a).mpr (not_lt.mpr ((hltb a b).mp h).le)
  have htrans : ∀ a b c : α, ltb b a = false → ltb c b = false →
      ltb c a = false := by
    intro a b c hba hcb
    exact (hfalse c a).mpr (not_lt.mpr
      (le_trans (not_lt.mp ((hfalse c b).mp hcb))
        (not_lt.mp ((hfalse b a).mp hba))))
  have h := sortStable_sorted hasym htrans l
  refine h.imp ?_
  intro a b hab
  exact not_lt.mp ((hfalse b a).mp hab)

/-! ## Claim theorems -/

/-- C1 (code bug): the claim says a missing `(path, title)` entry is
initialized to zero before `delta` is added, so `N` matching ticks of
interval `d` record `N * d`. The code's inner `get` defaults to the delta
argument itself (`self[application].get(title, timedelta) + timedelta`),
so the very first accrual records `2 * delta`: one 1-second tick on an
empty ledger records 2 seconds, and the spec's five-tick scenario records
6 seconds instead of 5. -/
theorem add_timedelta_first_accrual_doubles :
    (∀ (path title : String) (d : Duration),
      add_timedelta [] path title d = [(path, [(title, d + d)])])
    ∧ add_timedelta [] "/usr/bin/editor" "draft.txt" 1
        = [("/usr/bin/editor", [("draft.txt", 2)])]
    ∧ accrueAll (List.replicate 5 ("/usr/bin/editor", "draft.txt", 1))
        = [("/usr/bin/editor", [("draft.txt", 6)])] := by
  refine ⟨fun path title d => rfl, ?_, ?_⟩
  · norm_num [add_timedelta, dictGet, dictInsert]
  · norm_num [accrueAll, add_timedelta, dictGet, dictInsert,
      List.replicate]

/-- C2 (confirmed): for every ledger reachable by a finite sequence of
accrue calls from the empty ledger, deserializing its serialization gives
back the very same ledger (the rational-seconds model is exact, which is
within the claim's floating-point tolerance). -/
theorem deserialize_serialize_roundtrip
    (calls : List (String × String × Duration)) :
    from_xml (to_xml (accrueAll calls)) = .ok (accrueAll calls) :=
  from_xml_to_xml (WF_accrueAll calls)

/-- C3 counterexample: the claim says every well-formed document whose root
element is not `TimeRecord` makes deserialize fail; but `from_xml` never
checks the root tag, so `<Foo/>` deserializes without error to the empty
ledger. -/
theorem from_xml_unknown_root_returns_ledger :
    from_xml ⟨"Foo", none, none, []⟩ = .ok ([] : TimeRecord) := rfl

/-- C3 (amended): deserialize fails with an error on a missing `name`
attribute (on an `Application` or a `Title` child) and on absent or
non-numeric duration text; but the root tag is never validated — the
result depends only on the root's children, so a document with an unknown
root element is processed identically rather than rejected. -/
theorem from_xml_schema_errors (root : XmlElem)
    (h : ∃ a ∈ findall "Application" root, a.nameAttr = none ∨
      ∃ t ∈ findall "Title" a, t.nameAttr = none ∨ t.text = none) :
    (∃ e, from_xml root = .error e)
    ∧ ∀ (tag₁ tag₂ : String) (nm : Option String) (tx : Option Duration)
        (ch : List XmlElem),
        from_xml ⟨tag₁, nm, tx, ch⟩ = from_xml ⟨tag₂, nm, tx, ch⟩ :=
  ⟨from_xml_error h, fun _ _ _ _ _ => rfl⟩

theorem from_xml_schema_errors_witness :
    ∃ e, from_xml ⟨"TimeRecord", none, none,
      [⟨"Application", none, none, []⟩]⟩ = .error e :=
  (from_xml_schema_errors ⟨"TimeRecord", none, none,
      [⟨"Application", none, none, []⟩]⟩
    ⟨⟨"Application", none, none, []⟩, by simp [findall], Or.inl rfl⟩).1

/-- C9 (confirmed): an absent backing-store file is not an error — `load`
returns the empty ledger (`FileNotFoundError` is caught, lines 87–92). -/
theorem load_record_absent_returns_empty :
    load_record none = .ok ([] : TimeRecord) := rfl

/-- A ledger previously persisted in the backing store. -/
def oldLedger : TimeRecord := [("/usr/bin/editor", [("draft.txt", 5)])]

/-- The ledger being saved when the process dies. -/
def newLedger : TimeRecord := [("/usr/bin/editor", [("draft.txt", 6)])]

/-- The file system just before the save: `record.xml` holds the old
serialized ledger and nothing else exists. -/
def preSaveFs : String → FileContent :=
  fun p => if p = "record.xml" then .complete (to_xml oldLedger) else .absent

/-- The file system after the process terminated between write-start and
write-end: only the truncating `open` of `save_record` has happened. -/
def crashedFs : String → FileContent :=
  runOps preSaveFs ((save_record_ops newLedger).take 1)

/-- C4 counterexample: `save_record` is just `open("record.xml", "w")`
followed by the write — no temp file, no rename — so a process termination
after the truncating open and before the write completes leaves a
truncated `record.xml` with neither the old nor the new document present
anywhere. -/
theorem save_record_crash_leaves_truncated_file :
    save_record_ops newLedger
      = [FsOp.openTrunc "record.xml",
         FsOp.writeAll "record.xml" (to_xml newLedger)]
    ∧ crashedFs "record.xml" = .truncated
    ∧ ¬ docPresent crashedFs (to_xml oldLedger)
    ∧ ¬ docPresent crashedFs (to_xml newLedger) := by
  refine ⟨rfl, rfl, ?_, ?_⟩ <;>
  · rintro ⟨p, hp⟩
    by_cases hpr : p = "record.xml" <;>
      simp [crashedFs, runOps, applyOp, preSaveFs, save_record_ops,
        hpr] at hp

/-- C4 (amended): `save_record` writes the serialized ledger directly to
`record.xml` by truncating it in place and then writing, with no
write-to-temp-then-rename step; a termination after the truncating open
leaves `record.xml` truncated (while touching no other path), and only the
completed trace leaves the new document in place. -/
theorem save_record_writes_in_place (r : TimeRecord)
    (fs : String → FileContent) :
    save_record_ops r
      = [FsOp.openTrunc "record.xml", FsOp.writeAll "record.xml" (to_xml r)]
    ∧ runOps fs ((save_record_ops r).take 1) "record.xml" = .truncated
    ∧ (∀ p, p ≠ "record.xml" →
        runOps fs ((save_record_ops r).take 1) p = fs p)
    ∧ runOps fs (save_record_ops r) "record.xml" = .complete (to_xml r) := by
  refine ⟨rfl, rfl, ?_, rfl⟩
  intro p hp
  simp [runOps, applyOp, save_record_ops, hp]

theorem save_record_writes_in_place_witness :
    runOps preSaveFs ((save_record_ops newLedger).take 1) "record.xml.tmp"
      = preSaveFs "record.xml.tmp" :=
  (save_record_writes_in_place newLedger preSaveFs).2.2.1 "record.xml.tmp"
    (by decide)

/-- C5 (confirmed): while `paused` is set, every sample tick and every save
tick is dropped by the `filter(not paused)` stage: any number of elapsed
tick events leaves the state — ledger and saved snapshots included —
literally unchanged, and prefixing a later event sequence with those
suppressed ticks does not alter its outcome (no catch-up accrual and no
catch-up save after resuming). -/
theorem paused_ticks_suppressed (s : AppState) (es rest : List Event)
    (hp : s.paused = true) (ht : ∀ e ∈ es, isTick e = true) :
    run s es = s
    ∧ (run s es).record = s.record
    ∧ (run s es).saves = s.saves
    ∧ run s (es ++ rest) = run s rest := by
  have hrun : run s es = s := by
    induction es with
    | nil => rfl
    | cons e es' ih =>
        have hstep : step s e = s := by
          cases e with
          | sampleTick info => simp [step, hp]
          | saveTick => simp [step, hp]
          | togglePause =>
              exact absurd (ht _ (List.mem_cons_self _ _)) (by simp [isTick])
          | sortByProcess =>
              exact absurd (ht _ (List.mem_cons_self _ _)) (by simp [isTick])
          | sortByTime =>
              exact absurd (ht _ (List.mem_cons_self _ _)) (by simp [isTick])
        show List.foldl step (step s e) es' = s
        rw [hstep]
        exact ih (fun e' he' => ht e' (List.mem_cons_of_mem _ he'))
  refine ⟨hrun, by rw [hrun], by rw [hrun], ?_⟩
  show List.foldl step s (es ++ rest) = run s rest
  rw [List.foldl_append]
  show run (run s es) rest = run s rest
  rw [hrun]

theorem paused_ticks_suppressed_witness :
    run ⟨true, [], [], some true, none⟩
        [Event.sampleTick ⟨none, 7, "/usr/bin/editor", "draft.txt"⟩,
         Event.saveTick]
      = ⟨true, [], [], some true, none⟩
    ∧ (run ⟨true, [], [], some true, none⟩
        [Event.sampleTick ⟨none, 7, "/usr/bin/editor", "draft.txt"⟩,
         Event.saveTick]).record = ([] : TimeRecord)
    ∧ (run ⟨true, [], [], some true, none⟩
        [Event.sampleTick ⟨none, 7, "/usr/bin/editor", "draft.txt"⟩,
         Event.saveTick]).saves = ([] : List TimeRecord)
    ∧ run ⟨true, [], [], some true, none⟩
        ([Event.sampleTick ⟨none, 7, "/usr/bin/editor", "draft.txt"⟩,
          Event.saveTick] ++ [Event.togglePause])
      = run ⟨true, [], [], some true, none⟩ [Event.togglePause] :=
  paused_ticks_suppressed ⟨true, [], [], some true, none⟩
    [Event.sampleTick ⟨none, 7, "/usr/bin/editor", "draft.txt"⟩,
     Event.saveTick] [Event.togglePause] rfl
    (by intro e he; fin_cases he <;> rfl)

/-- C8 (confirmed): when the OS query fails, `get_active_window_info`
catches the exception and returns a typed error dictionary instead of
raising (it is a total function of the query result), and the
`filter("error" not in info)` stage then drops the sample, so the tick
leaves the application state — the ledger in particular — unchanged. -/
theorem sampler_failure_skips_accrual (s : AppState)
    (osq : Except String (Int × String × String)) (msg : String)
    (h : osq = .error msg) :
    (get_active_window_info osq).error = some msg
    ∧ step s (.sampleTick (get_active_window_info osq)) = s
    ∧ (step s (.sampleTick (get_active_window_info osq))).record
        = s.record := by
  subst h
  refine ⟨rfl, ?_, ?_⟩ <;> simp [step, get_active_window_info]

/-- One step preserves "at most one sort mode is active": the tick and
pause events do not touch the flags, and each sort action clears the
other flag. -/
theorem step_sort_exclusive {s : AppState}
    (h : s.sort_by_process_up = none ∨ s.sort_by_time_up = none)
    (e : Event) :
    (step s e).sort_by_process_up = none
      ∨ (step s e).sort_by_time_up = none := by
  cases e with
  | sampleTick info =>
      by_cases hp : s.paused
      · simpa [step, hp] using h
      · by_cases he : info.error.isSome
        · simpa [step, hp, he] using h
        · simpa [step, hp, he] using h
  | saveTick =>
      by_cases hp : s.paused
      · simpa [step, hp] using h
      · simpa [step, hp] using h
  | togglePause => simpa [step] using h
  | sortByProcess => exact Or.inr (by simp [step])
  | sortByTime => exact Or.inl (by simp [step])

/-- The exclusivity invariant holds in every state reachable from startup. -/
theorem run_sort_exclusive (r₀ : TimeRecord) (es : List Event) :
    (run (initialState r₀) es).sort_by_process_up = none
      ∨ (run (initialState r₀) es).sort_by_time_up = none := by
  suffices hgen : ∀ (es : List Event) (s : AppState),
      (s.sort_by_process_up = none ∨ s.sort_by_time_up = none) →
      ((run s es).sort_by_process_up = none
        ∨ (run s es).sort_by_time_up = none) by
    exact hgen es (initialState r₀) (Or.inr rfl)
  intro es
  induction es with
  | nil => intro s h; exact h
  | cons e es' ih =>
      intro s h
      exact ih (step s e) (step_sort_exclusive h e)

/-- C7 (confirmed): in every state reachable from startup, at most one of
the two sort modes is active; pressing sort-by-name clears the time mode
and pressing sort-by-time clears the name mode; and pressing the sort key
of an already-active mode toggles that mode's direction (`some b` becomes
`some (!b)`) instead of clearing the mode. -/
theorem sort_modes_exclusive_and_toggle (r₀ : TimeRecord)
    (es : List Event) :
    ((run (initialState r₀) es).sort_by_process_up = none
      ∨ (run (initialState r₀) es).sort_by_time_up = none)
    ∧ (step (run (initialState r₀) es) .sortByProcess).sort_by_time_up
        = none
    ∧ (step (run (initialState r₀) es) .sortByTime).sort_by_process_up
        = none
    ∧ (∀ b, (run (initialState r₀) es).sort_by_process_up = some b →
        (step (run (initialState r₀) es) .sortByProcess).sort_by_process_up
          = some (!b))
    ∧ (∀ b, (run (initialState r₀) es).sort_by_time_up = some b →
        (step (run (initialState r₀) es) .sortByTime).sort_by_time_up
          = some (!b)) := by
  refine ⟨run_sort_exclusive r₀ es, by simp [step], by simp [step], ?_, ?_⟩
  · intro b hb
    simp [step, hb]
  · intro b hb
    simp [step, hb]

theorem sort_modes_exclusive_and_toggle_witness :
    (step (run (initialState []) []) .sortByProcess).sort_by_process_up
      = some false
    ∧ (step (run (initialState []) [Event.sortByTime])
        .sortByTime).sort_by_time_up = some false :=
  ⟨(sort_modes_exclusive_and_toggle [] []).2.2.2.1 true rfl,
   (sort_modes_exclusive_and_toggle [] [Event.sortByTime]).2.2.2.2 true rfl⟩

theorem string_a_lt_b : ("a" : String) < "b" := by
  rw [String.lt_iff_toList_lt]
  decide

theorem string_not_b_le_a : ¬ ("b" : String) ≤ "a" := by
  rw [String.le_iff_toList_le]
  decide

/-- The startup projection evaluated on a two-application ledger: the
entries come out in descending path order. -/
theorem orderEntries_startup_eval :
    orderEntries (some true) none
        [("a", [("t", (1 : Duration))]), ("b", [("u", 1)])]
      = [("b", [("u", 1)]), ("a", [("t", 1)])] := by
  have hab := string_a_lt_b
  simp [orderEntries, pySorted, sortStable, insertStable, hab]

/-- C6 counterexample: the claim says the startup default sorts the
application entries by executable path in ascending order. At startup
`sort_by_process_up = True` is passed as `reverse=True` to `sorted`, so
with two applications named `"a"` and `"b"` the projection lists `"b"`
first — a descending, not ascending, order. -/
theorem startup_sort_not_ascending :
    (orderEntries (some true) none
        [("a", [("t", 1)]), ("b", [("u", 1)])]).map Prod.fst = ["b", "a"]
    ∧ ¬ List.Sorted (fun x y : String => x ≤ y)
        ((orderEntries (some true) none
          [("a", [("t", 1)]), ("b", [("u", 1)])]).map Prod.fst) := by
  rw [orderEntries_startup_eval]
  refine ⟨rfl, ?_⟩
  intro hsorted
  have hba : ("b" : String) ≤ "a" :=
    (List.pairwise_cons.mp hsorted).1 "a" (List.mem_singleton.mpr rfl)
  exact absurd hba string_not_b_le_a

/-- C6 (amended): in the initial state at startup (`sort_by_process_up =
True`, `sort_by_time_up = None`, before any sort command), the projection
sorts the application entries by executable-path string in *descending*
order — a permutation of the ledger's entries whose path keys descend —
and applies the same descending name ordering to the titles within each
application. -/
theorem startup_sort_descending (r₀ r : TimeRecord) :
    (initialState r₀).sort_by_process_up = some true
    ∧ (initialState r₀).sort_by_time_up = none
    ∧ List.Sorted (fun a b : String => b ≤ a)
        ((orderEntries (some true) none r).map Prod.fst)
    ∧ List.Perm ((orderEntries (some true) none r).map Prod.fst)
        (r.map Prod.fst)
    ∧ ∀ p ∈ orderEntries (some true) none r,
        List.Sorted (fun a b : String => b ≤ a) (keys p.2) := by
  have horder : orderEntries (some true) none r
      = (pySorted (fun x : String × List (String × Duration) => x.1) true
          r).map
          (fun p => (p.1, pySorted (fun x : String × Duration => x.1) true
            p.2)) := rfl
  refine ⟨rfl, rfl, ?_, ?_, ?_⟩
  · rw [horder, List.map_map]
    rw [show (Prod.fst ∘ fun p : String × List (String × Duration) =>
        (p.1, pySorted (fun x : String × Duration => x.1) true p.2))
        = Prod.fst from rfl]
    rw [pySorted_true]
    exact (List.pairwise_map).mpr
      (sortStable_pairwise_key_desc
        (fun x : String × List (String × Duration) => x.1)
        (fun a b => by simp) r)
  · rw [horder, List.map_map]
    rw [show (Prod.fst ∘ fun p : String × List (String × Duration) =>
        (p.1, pySorted (fun x : String × Duration => x.1) true p.2))
        = Prod.fst from rfl]
    rw [pySorted_true]
    exact (sortStable_perm _ r).map Prod.fst
  · intro p hp
    rw [horder] at hp
    rcases List.mem_map.mp hp with ⟨q, _, hq⟩
    rw [← hq]
    show List.Sorted (fun a b : String => b ≤ a)
      (keys (pySorted (fun x : String × Duration => x.1) true q.2))
    rw [pySorted_true]
    exact (List.pairwise_map).mpr
      (sortStable_pairwise_key_desc (fun x : String × Duration => x.1)
        (fun a b => by simp) q.2)

theorem startup_sort_descending_witness :
    List.Sorted (fun a b : String => b ≤ a)
      (keys (("b", [("u", (1 : Duration))])
        : String × List (String × Duration)).2) :=
  (startup_sort_descending [] [("a", [("t", 1)]), ("b", [("u", 1)])]).2.2.2.2
    ("b", [("u", 1)])
    (orderEntries_startup_eval ▸ List.mem_cons_self _ _)

/-- C10 (confirmed): when a document's `Application` children include a
last element named `nm` (any number of earlier children may carry the same
name), a successful deserialization holds, as the entry for `nm`, exactly
the titles parsed from that last element alone — the parse of its titles
starts from the empty mapping, so earlier same-named elements' title
durations are discarded wholesale, neither merged nor summed. -/
theorem from_xml_duplicate_app_last_wins (root : XmlElem) (r : TimeRecord)
    (nm : String) (a : XmlElem) (pre post : List XmlElem)
    (hsplit : findall "Application" root = pre ++ a :: post)
    (hnm : a.nameAttr = some nm)
    (hpost : ∀ b ∈ post, b.nameAttr ≠ some nm)
    (hok : from_xml root = .ok r) :
    ∃ ts, exceptFoldl parseTitle [] (findall "Title" a) = .ok ts
      ∧ dictGet nm r = some ts := by
  rw [from_xml, hsplit] at hok
  obtain ⟨mid, hpre, hrest⟩ :=
    exceptFoldl_append_ok parseApp pre (a :: post) [] r hok
  cases hf : parseApp mid a with
  | error e =>
      rw [exceptFoldl, hf] at hrest
      exact absurd hrest (by simp)
  | ok mid₂ =>
      rw [exceptFoldl, hf] at hrest
      rw [parseApp, hnm] at hf
      cases hts : exceptFoldl parseTitle [] (findall "Title" a) with
      | error e =>
          rw [hts] at hf
          exact absurd hf (by simp)
      | ok ts =>
          rw [hts] at hf
          have hmid₂ : mid₂ = dictInsert nm ts mid := by
            simpa using hf.symm
          refine ⟨ts, rfl, ?_⟩
          rw [exceptFoldl_parseApp_other post mid₂ r hrest hpost, hmid₂,
            dictGet_dictInsert_self]

theorem from_xml_duplicate_app_last_wins_witness :
    ∃ ts, exceptFoldl parseTitle []
        (findall "Title" (appToXml ("app", [("y", (2 : Duration))])))
        = .ok ts
      ∧ dictGet "app" [("app", [("y", (2 : Duration))])] = some ts :=
  from_xml_duplicate_app_last_wins
    ⟨"TimeRecord", none, none,
      [appToXml ("app", [("x", 1)]), appToXml ("app", [("y", 2)])]⟩
    [("app", [("y", 2)])] "app" (appToXml ("app", [("y", 2)]))
    [appToXml ("app", [("x", 1)])] []
    (by simp [findall, appToXml]) rfl (by simp)
    (by simp [from_xml, findall, appToXml, titleToXml, exceptFoldl,
      parseApp, parseTitle, dictInsert])

theorem sampler_failure_skips_accrual_witness :
    (get_active_window_info (.error "access denied")).error
      = some "access denied"
    ∧ step ⟨false, oldLedger, [], some true, none⟩
        (.sampleTick (get_active_window_info (.error "access denied")))
      = ⟨false, oldLedger, [], some true, none⟩
    ∧ (step ⟨false, oldLedger, [], some true, none⟩
        (.sampleTick (get_active_window_info (.error "access denied")))).record
      = oldLedger :=
  sampler_failure_skips_accrual ⟨false, oldLedger, [], some true, none⟩
    (.error "access denied") "access denied" rfl

end TimeUse
